import Mathlib

/-!
Verification development for the hoa2pg tool of the hoa-tools repository.
The definitions below are a shallow embedding of `src/hoa2pg.c` (together
with the data model declared in `simplehoa.h`): the label-expression trees,
the ternary label evaluator `evalLabel`, the priority normalizer
`adjustPriority`, the semantic-validation gate from `main`, and the
game-graph construction loop of `main`.
-/

namespace Hoa2PG

/-- Node kinds of a label/acceptance expression tree, mirroring `NodeType`
and the `BTree` struct of `simplehoa.h`.  `boolc` carries the truth value
stored in `id` by `boolBTree`; `apc` carries the AP index; `aliasc` carries
the alias name; `finc`, `infc`, `setc` are the acceptance-only kinds
`NT_FIN`, `NT_INF`, `NT_SET` (their integer payload is kept, their children
are irrelevant to `evalLabel`, which never reads them). -/
inductive BTree where
  | boolc (b : Bool)
  | andc (l r : BTree)
  | orc (l r : BTree)
  | notc (l : BTree)
  | apc (i : Nat)
  | aliasc (n : String)
  | finc (i : Int)
  | infc (i : Int)
  | setc (i : Int)
deriving DecidableEq, Repr

/-- The alias table (`AliasList`): an ordered association list from alias
names to their bound expressions. -/
abbrev AliasT := List (String × BTree)

/-- The linear alias lookup performed by the `NT_ALIAS` case of `evalLabel`
(`src/hoa2pg.c` lines 74-79): walk the list and return the expression of the
first entry whose name matches. -/
def lookupAlias : AliasT → String → Option BTree
  | [], _ => none
  | (a, t) :: rest, n => if a = n then some t else lookupAlias rest n

/-- The `NT_AP` case of `evalLabel` (`src/hoa2pg.c` lines 65-73): scan
`apIds` from position `k` upward; at the first position holding the sought
index `i`, return bit `k` of `value` encoded as `1` / `-1`; if the index is
absent, return `0` (unknown).  The C code's `mask = 1 << k; (mask & value)
== mask` test is `Nat.testBit value k`. -/
def evalAP : List Nat → Nat → Nat → Nat → Int
  | [], _, _, _ => 0
  | a :: rest, i, value, k =>
      if i = a then (if Nat.testBit value k then 1 else -1)
      else evalAP rest i value (k + 1)

/-- The ternary label evaluator `evalLabel` of `src/hoa2pg.c` (lines
36-84), returning `1` (true), `-1` (false) or `0` (unknown).  The C
function recurses through the alias table without any bound, so the
embedding adds an explicit `fuel` budget consumed only when an alias is
dereferenced; exhausted fuel yields the artificial sentinel `-3`, which no
branch of the C code produces.  The C code's out-of-range return `-2` is
reached exactly where the C `return -2` is: on an unresolved alias (the
`break` out of the `switch`) and on the acceptance-only node kinds (whose
`assert(false)` is a no-op under `NDEBUG`). -/
def evalLabel (fuel : Nat) (label : BTree) (aliases : AliasT)
    (apIds : List Nat) (value : Nat) : Int :=
  match fuel, label with
  | _, .boolc b => if b then 1 else -1
  | fuel, .andc l r =>
      let left := evalLabel fuel l aliases apIds value
      let right := evalLabel fuel r aliases apIds value
      if left = -1 ∨ right = -1 then -1
      else if left = 0 ∨ right = 0 then 0
      else 1
  | fuel, .orc l r =>
      let left := evalLabel fuel l aliases apIds value
      let right := evalLabel fuel r aliases apIds value
      if left = 1 ∨ right = 1 then 1
      else if left = 0 ∨ right = 0 then 0
      else -1
  | fuel, .notc l => -1 * evalLabel fuel l aliases apIds value
  | _, .apc i => evalAP apIds i value 0
  | 0, .aliasc _ => -3
  | fuel + 1, .aliasc n =>
      match lookupAlias aliases n with
      | some t => evalLabel fuel t aliases apIds value
      | none => -2
  | _, .finc _ => -2
  | _, .infc _ => -2
  | _, .setc _ => -2
termination_by (fuel, label)

/-- Instrumentation of the recursion of `evalLabel`: `true` iff no
evaluation step reaches the `assert(false)` default branch (the
acceptance-only node kinds), no alias lookup fails, and the fuel never runs
out.  The C code evaluates both children of `NT_AND` / `NT_OR` before
combining, so a fault in either child is a fault of the whole evaluation. -/
def evalAsserts (fuel : Nat) (label : BTree) (aliases : AliasT) : Bool :=
  match fuel, label with
  | _, .boolc _ => true
  | fuel, .andc l r => evalAsserts fuel l aliases && evalAsserts fuel r aliases
  | fuel, .orc l r => evalAsserts fuel l aliases && evalAsserts fuel r aliases
  | fuel, .notc l => evalAsserts fuel l aliases
  | _, .apc _ => true
  | 0, .aliasc _ => false
  | fuel + 1, .aliasc n =>
      match lookupAlias aliases n with
      | some t => evalAsserts fuel t aliases
      | none => false
  | _, .finc _ => false
  | _, .infc _ => false
  | _, .setc _ => false
termination_by (fuel, label)

/-- Well-formed label expressions of nesting depth (through aliases) at
most `d`: built only from the five label node kinds plus alias references
that resolve in the table to a well-formed expression.  This is the
precondition class named by the spec ("built only of constant, conjunction,
disjunction, negation, atomic-proposition-reference, and resolvable
alias-reference nodes"). -/
inductive WFd (al : AliasT) : Nat → BTree → Prop where
  | boolW {d b} : WFd al d (.boolc b)
  | andW {d l r} : WFd al d l → WFd al d r → WFd al d (.andc l r)
  | orW {d l r} : WFd al d l → WFd al d r → WFd al d (.orc l r)
  | notW {d l} : WFd al d l → WFd al d (.notc l)
  | apW {d i} : WFd al d (.apc i)
  | aliasW {d n t} : lookupAlias al n = some t → WFd al d t →
      WFd al (d + 1) (.aliasc n)

/-- The priority normalizer `adjustPriority` of `src/hoa2pg.c` (lines
91-112): round `noPriorities` up to an even number, flip `p` across it when
the original objective is min, then shift by `2 - winRes`. -/
def adjustPriority (p : Int) (maxPriority : Bool) (winRes : Int)
    (noPriorities : Int) : Int :=
  let evenMax := if noPriorities % 2 ≠ 0 then noPriorities + 1 else noPriorities
  let pForMax := if maxPriority then p else evenMax - p
  pForMax + (2 - winRes)

/-- The scan over the acceptance-name parameters of `main` (`src/hoa2pg.c`
lines 132-154): walk the list once; each `"max"` / `"min"` occurrence
overwrites `maxPriority` (and records that one was found), each `"even"` /
`"odd"` occurrence overwrites `winRes` likewise.  `none` models the unset
(`found… = false`) state. -/
def scanParams : List String → Option Bool → Option Int →
    Option Bool × Option Int
  | [], mo, mr => (mo, mr)
  | s :: rest, mo, mr =>
      let mo := if s = "max" then some true
        else if s = "min" then some false else mo
      let mr := if s = "even" then some 0
        else if s = "odd" then some (1 : Int) else mr
      scanParams rest mo mr

/-- The acceptance-name parameter checks of `main` (`src/hoa2pg.c` lines
132-162): after the scan, the absence of any max/min parameter is exit
code `101`, the absence of any even/odd parameter is exit code `102`;
otherwise the extracted `(maxPriority, winRes)` pair is returned. -/
def checkAccParams (params : List String) : Except Nat (Bool × Int) :=
  match scanParams params none none with
  | (none, _) => .error 101
  | (some _, none) => .error 102
  | (some b, some r) => .ok (b, r)

/-- The scan over the property tokens of `main` (`src/hoa2pg.c` lines
164-174), producing the `(det, complete, colored)` flags. -/
def scanProps : List String → Bool → Bool → Bool → Bool × Bool × Bool
  | [], det, comp, col => (det, comp, col)
  | s :: rest, det, comp, col =>
      scanProps rest (if s = "deterministic" then true else det)
        (if s = "complete" then true else comp)
        (if s = "colored" then true else col)

/-- The full semantic-validation gate of `main` (`src/hoa2pg.c` lines
125-194), run in source order: acceptance-name identifier (`100`), max/min
parameter (`101`), even/odd parameter (`102`), `deterministic` (`200`),
`complete` (`201`), `colored` (`202`), unique start state (`300`); on
success the extracted `(maxPriority, winRes)` pair is returned and the
construction may run. -/
def validate (accNameID : String) (accNameParameters properties : List String)
    (start : List Nat) : Except Nat (Bool × Int) :=
  if accNameID ≠ "parity" then .error 100
  else
    match checkAccParams accNameParameters with
    | .error e => .error e
    | .ok (b, r) =>
        match scanProps properties false false false with
        | (false, _, _) => .error 200
        | (true, false, _) => .error 201
        | (true, true, false) => .error 202
        | (true, true, true) =>
            match start with
            | [_] => .ok (b, r)
            | _ => .error 300

/-- A transition of the automaton model (`TransList` of `simplehoa.h`): an
optional label expression, successor state ids, and an acceptance
signature. -/
structure TransC where
  label : Option BTree
  successors : List Nat
  accSig : List Int
deriving DecidableEq

/-- A state of the automaton model (`StateList` of `simplehoa.h`). -/
structure StateC where
  id : Nat
  name : Option String
  label : Option BTree
  accSig : List Int
  transitions : List TransC
deriving DecidableEq

/-- The fields of `HoaData` (`simplehoa.h`) that `main` of `src/hoa2pg.c`
reads after validation. -/
structure Hoa where
  noStates : Nat
  states : List StateC
  aliases : AliasT
  noAccSets : Int
  noAPs : Nat
  cntAPs : List Nat
  accNameID : String
  accNameParameters : List String
  properties : List String
  start : List Nat
deriving DecidableEq

/-- One output line of the PGSolver file: `<id> <priority> <owner>
<successors> "<name>"`. -/
structure PGLine where
  id : Nat
  prio : Int
  owner : Nat
  succs : List Nat
  name : String
deriving DecidableEq

/-- The effective label of a transition (`src/hoa2pg.c` lines 241-246): the
state-level label when present, else the transition's own label.  The C
code asserts the result is non-NULL; the embedding returns a junk default
in that (invalid) case. -/
def effLabel (st : StateC) (t : TransC) : BTree :=
  match st.label with
  | some l => l
  | none => t.label.getD (BTree.boolc false)

/-- The effective acceptance-set index of a transition (`src/hoa2pg.c`
lines 248-253): the state-level signature when present, else the
transition's own; the C code asserts the signature is a singleton and reads
its sole element. -/
def effAcc (st : StateC) (t : TransC) : Int :=
  (match st.accSig with
   | [] => t.accSig
   | l => l).headD 0

/-- The parameters of the construction loop that are fixed over all states:
the alias table, the validated acceptance parameters, the number of
acceptance sets, the uncontrollable-AP index list, and the alias fuel of
the embedded evaluator. -/
structure GameCtx where
  aliases : AliasT
  maxPriority : Bool
  winRes : Int
  noAccSets : Int
  ucntAPs : List Nat
  fuel : Nat
deriving DecidableEq

/-- The inner per-transition loop of `main` (`src/hoa2pg.c` lines 235-276)
for one state `st` and one valuation `value`: walk the transitions; for
each one whose effective label does not evaluate to `-1` (definitely
false), allocate the fresh identifier `next`, emit its transition-vertex
line (priority = normalized acceptance index, owner 0, single successor,
label text = its own id) and prepend the identifier to the accumulator
`vals` (the C `prependIntNode(validVals, fullVal)`).  Returns the next
fresh identifier, the emitted lines in emission order, and the final
accumulator. -/
def transLoop (cx : GameCtx) (st : StateC) (value : Nat) :
    List TransC → Nat → List Nat → Nat × List PGLine × List Nat
  | [], next, vals => (next, [], vals)
  | t :: ts, next, vals =>
      let priority := adjustPriority (effAcc st t) cx.maxPriority cx.winRes
        cx.noAccSets
      let evald := evalLabel cx.fuel (effLabel st t) cx.aliases cx.ucntAPs value
      if evald ≠ -1 then
        let line : PGLine :=
          ⟨next, priority, 0, [t.successors.headD 0], toString next⟩
        let rest := transLoop cx st value ts (next + 1) (next :: vals)
        (rest.1, line :: rest.2.1, rest.2.2)
      else
        transLoop cx st value ts next vals

/-- The body of the per-valuation loop of `main` (`src/hoa2pg.c` lines
232-285) for one `value`: run the transition loop starting from the empty
accumulator, then emit the valuation vertex `partVal = firstSucc + value`
with priority 0, owner 0, successor list equal to the accumulated list as
it stands (the C code prints `validVals` head first, so the printed order
is the list order), and label text its own id. -/
def valuationBlock (cx : GameCtx) (st : StateC) (firstSucc value next : Nat) :
    List PGLine × Nat :=
  let r := transLoop cx st value st.transitions next []
  let partVal := firstSucc + value
  (r.2.1 ++ [⟨partVal, 0, 0, r.2.2, toString partVal⟩], r.1)

/-- The per-valuation loop of `main`: iterate `value` upward, `r` values
remaining, threading the fresh-identifier counter. -/
def valLoop (cx : GameCtx) (st : StateC) (firstSucc : Nat) :
    Nat → Nat → Nat → List PGLine × Nat
  | 0, _, next => ([], next)
  | r + 1, value, next =>
      let b := valuationBlock cx st firstSucc value next
      let rest := valLoop cx st firstSucc r (value + 1) b.2
      (b.1 ++ rest.1, rest.2)

/-- The per-state body of `main` (`src/hoa2pg.c` lines 228-296): reserve a
block of `numValuations` consecutive identifiers starting at `firstSucc =
next` for the valuation vertices, run the per-valuation loop, then emit the
decision vertex: id = the state's id, priority 0, owner 1, successors
printed as `firstSucc` followed by the whole range `firstSucc ..
firstSucc + numValuations - 1` (the C loop at lines 288-291 starts again at
`firstSucc`, so `firstSucc` is printed twice), and label text = the state's
name if present, else its id. -/
def stateBlock (cx : GameCtx) (numValuations : Nat) (st : StateC)
    (next : Nat) : List PGLine × Nat :=
  let firstSucc := next
  let r := valLoop cx st firstSucc numValuations 0 (next + numValuations)
  let dline : PGLine :=
    ⟨st.id, 0, 1, firstSucc :: List.range' firstSucc numValuations,
     st.name.getD (toString st.id)⟩
  (r.1 ++ [dline], r.2)

/-- The outer per-state loop of `main`, threading the fresh-identifier
counter. -/
def stateLoop (cx : GameCtx) (numValuations : Nat) :
    List StateC → Nat → List PGLine × Nat
  | [], next => ([], next)
  | st :: sts, next =>
      let b := stateBlock cx numValuations st next
      let rest := stateLoop cx numValuations sts b.2
      (b.1 ++ rest.1, rest.2)

/-- The uncontrollable-AP list computed by `main` (`src/hoa2pg.c` lines
196-218): the AP indices `0 .. noAPs - 1` not listed in `cntAPs`, in
ascending order. -/
def ucntAPs (d : Hoa) : List Nat :=
  (List.range d.noAPs).filter (fun i => i ∉ d.cntAPs)

/-- `numValuations = 1 << numUcntAPs` (`src/hoa2pg.c` line 224). -/
def numValuations (d : Hoa) : Nat := 2 ^ (ucntAPs d).length

/-- The game construction of `main` after validation (`src/hoa2pg.c` lines
196-296): the header bound `noStates * (numValuations + 1) - 1` printed on
the `parity N;` line (computed before any vertex line, from `nextIndex =
data->noStates`), and the list of vertex lines in emission order.
`maxPriority` and `winRes` are the values the validation gate extracted
from the acceptance-name parameters; `fuel` is the embedding's alias
budget. -/
def buildGame (d : Hoa) (maxPriority : Bool) (winRes : Int) (fuel : Nat) :
    Int × List PGLine :=
  let nV := numValuations d
  let cx : GameCtx := ⟨d.aliases, maxPriority, winRes, d.noAccSets,
    ucntAPs d, fuel⟩
  let header : Int := (d.noStates : Int) * ((nV : Int) + 1) - 1
  (header, (stateLoop cx nV d.states d.noStates).1)

/-- Kleene negation on the evaluator's integer encoding: swaps `1` and
`-1` and sends everything else to `0` (undetermined). -/
def kleeneFlip (x : Int) : Int := if x = 1 then -1 else if x = -1 then 1 else 0

/-- Concrete validated automaton: one state (id 0) with a single
always-true self-loop of acceptance signature `{0}`, no atomic
propositions, parity max even.  Here `numValuations = 1`. -/
def E1 : Hoa :=
  ⟨1, [⟨0, none, none, [], [⟨some (BTree.boolc true), [0], [0]⟩]⟩],
   [], 1, 0, [], "parity", ["max", "even"],
   ["deterministic", "complete", "colored"], [0]⟩

/-- Concrete validated automaton: as `E1` but with two always-true
self-loop transitions, so one valuation collects two compatible-transition
vertices. -/
def E2 : Hoa :=
  ⟨1, [⟨0, none, none, [],
     [⟨some (BTree.boolc true), [0], [0]⟩,
      ⟨some (BTree.boolc true), [0], [0]⟩]⟩],
   [], 1, 0, [], "parity", ["max", "even"],
   ["deterministic", "complete", "colored"], [0]⟩

/-! ### Lemmas about the ternary evaluator -/

lemma evalAP_range (aps : List Nat) (i v k : Nat) :
    evalAP aps i v k = -1 ∨ evalAP aps i v k = 0 ∨ evalAP aps i v k = 1 := by
  induction aps generalizing k with
  | nil => simp [evalAP]
  | cons a rest ih =>
      by_cases h : i = a
      · simp only [evalAP, if_pos h]
        cases hb : Nat.testBit v k <;> simp [hb]
      · simpa [evalAP, h] using ih (k + 1)

lemma evalAP_not_mem {aps : List Nat} {i : Nat} (h : i ∉ aps) (v k : Nat) :
    evalAP aps i v k = 0 := by
  induction aps generalizing k with
  | nil => simp [evalAP]
  | cons a rest ih =>
      simp only [List.mem_cons, not_or] at h
      simp [evalAP, h.1, ih h.2]

/-- Master lemma on well-formed labels: with fuel at least the alias depth,
`evalLabel` returns a value of the ternary range and no evaluation step
reaches an assertion-failure branch, an unresolved alias or fuel
exhaustion. -/
lemma evalLabel_wf {al : AliasT} {d : Nat} {e : BTree} (hwf : WFd al d e) :
    ∀ {fuel : Nat}, d ≤ fuel → ∀ (aps : List Nat) (v : Nat),
    (evalLabel fuel e al aps v = -1 ∨ evalLabel fuel e al aps v = 0 ∨
      evalLabel fuel e al aps v = 1) ∧ evalAsserts fuel e al = true := by
  induction hwf with
  | boolW =>
      intro fuel _ aps v
      refine ⟨?_, by simp [evalAsserts]⟩
      simp only [evalLabel]
      split <;> simp
  | andW hl hr ihl ihr =>
      intro fuel hf aps v
      refine ⟨?_, by simp [evalAsserts, (ihl hf aps v).2, (ihr hf aps v).2]⟩
      simp only [evalLabel]
      split <;> [skip; split] <;> simp
  | orW hl hr ihl ihr =>
      intro fuel hf aps v
      refine ⟨?_, by simp [evalAsserts, (ihl hf aps v).2, (ihr hf aps v).2]⟩
      simp only [evalLabel]
      split <;> [skip; split] <;> simp
  | notW hl ihl =>
      intro fuel hf aps v
      refine ⟨?_, by simp [evalAsserts, (ihl hf aps v).2]⟩
      rcases (ihl hf aps v).1 with h | h | h <;> simp [evalLabel, h]
  | apW =>
      intro fuel _ aps v
      exact ⟨by simpa [evalLabel] using evalAP_range aps _ v 0,
        by simp [evalAsserts]⟩
  | aliasW hlook ht iht =>
      intro fuel hf aps v
      match fuel, hf with
      | f + 1, hf =>
          have hd : _ ≤ f := Nat.le_of_succ_le_succ hf
          refine ⟨?_, ?_⟩
          · simpa [evalLabel, hlook] using (iht hd aps v).1
          · simpa [evalAsserts, hlook] using (iht hd aps v).2

/-! ### Lemmas about the validation gate -/

lemma scanParams_fst_none (ps : List String) (mo : Option Bool)
    (mr : Option Int) :
    (scanParams ps mo mr).1 = none ↔
      mo = none ∧ "max" ∉ ps ∧ "min" ∉ ps := by
  induction ps generalizing mo mr with
  | nil => simp [scanParams]
  | cons s rest ih =>
      simp only [scanParams]
      rw [ih]
      by_cases h1 : s = "max"
      · subst h1; simp
      · by_cases h2 : s = "min"
        · subst h2; simp [h1]
        · simp only [if_neg h1, if_neg h2, List.mem_cons]
          constructor
          · rintro ⟨a, b, c⟩
            refine ⟨a, ?_, ?_⟩ <;> simp only [not_or] <;>
              [exact ⟨fun h => h1 h.symm, b⟩; exact ⟨fun h => h2 h.symm, c⟩]
          · rintro ⟨a, b, c⟩
            simp only [not_or] at b c
            exact ⟨a, b.2, c.2⟩

lemma scanParams_snd_none (ps : List String) (mo : Option Bool)
    (mr : Option Int) :
    (scanParams ps mo mr).2 = none ↔
      mr = none ∧ "even" ∉ ps ∧ "odd" ∉ ps := by
  induction ps generalizing mo mr with
  | nil => simp [scanParams]
  | cons s rest ih =>
      simp only [scanParams]
      rw [ih]
      by_cases h1 : s = "even"
      · subst h1; simp
      · by_cases h2 : s = "odd"
        · subst h2; simp [h1]
        · simp only [if_neg h1, if_neg h2, List.mem_cons]
          constructor
          · rintro ⟨a, b, c⟩
            refine ⟨a, ?_, ?_⟩ <;> simp only [not_or] <;>
              [exact ⟨fun h => h1 h.symm, b⟩; exact ⟨fun h => h2 h.symm, c⟩]
          · rintro ⟨a, b, c⟩
            simp only [not_or] at b c
            exact ⟨a, b.2, c.2⟩

/-! ### Lemmas about the construction loops -/

lemma transLoop_spec (cx : GameCtx) (st : StateC) (value : Nat) :
    ∀ (ts : List TransC) (next : Nat) (acc : List Nat),
    ∃ k, (transLoop cx st value ts next acc).1 = next + k ∧
      ((transLoop cx st value ts next acc).2.1).map PGLine.id =
        List.range' next k ∧
      (transLoop cx st value ts next acc).2.2 =
        (List.range' next k).reverse ++ acc ∧
      ∀ l ∈ (transLoop cx st value ts next acc).2.1, l.owner = 0 := by
  intro ts
  induction ts with
  | nil =>
      intro next acc
      exact ⟨0, by simp [transLoop]⟩
  | cons t ts ih =>
      intro next acc
      simp only [transLoop]
      split
      · obtain ⟨k, h1, h2, h3, h4⟩ := ih (next + 1) (next :: acc)
        refine ⟨k + 1, ?_, ?_, ?_, ?_⟩
        · rw [h1]
          omega
        · rw [List.range'_succ]
          simp [h2]
        · rw [List.range'_succ]
          simp [h3]
        · intro l hl
          rcases List.mem_cons.mp hl with h | h
          · rw [h]
          · exact h4 l h
      · exact ih next acc

lemma valuationBlock_struct (cx : GameCtx) (st : StateC)
    (firstSucc value next : Nat) :
    ∃ k tl,
      (valuationBlock cx st firstSucc value next).2 = next + k ∧
      (valuationBlock cx st firstSucc value next).1 =
        tl ++ [⟨firstSucc + value, 0, 0, (List.range' next k).reverse,
               toString (firstSucc + value)⟩] ∧
      tl.map PGLine.id = List.range' next k ∧
      ∀ l ∈ tl, l.owner = 0 := by
  obtain ⟨k, h1, h2, h3, h4⟩ :=
    transLoop_spec cx st value st.transitions next []
  refine ⟨k, (transLoop cx st value st.transitions next []).2.1,
    h1, ?_, h2, h4⟩
  simp only [valuationBlock]
  rw [h3]
  simp

lemma valLoop_spec (cx : GameCtx) (st : StateC) (firstSucc : Nat) :
    ∀ (r value next : Nat),
    ∃ K, (valLoop cx st firstSucc r value next).2 = next + K ∧
      ((valLoop cx st firstSucc r value next).1.map PGLine.id).Perm
        (List.range' (firstSucc + value) r ++ List.range' next K) ∧
      ∀ l ∈ (valLoop cx st firstSucc r value next).1, l.owner = 0 := by
  intro r
  induction r with
  | zero =>
      intro value next
      exact ⟨0, by simp [valLoop]⟩
  | succ r ih =>
      intro value next
      obtain ⟨k, tl, hb1, hb2, hb3, hb4⟩ :=
        valuationBlock_struct cx st firstSucc value next
      obtain ⟨K, h1, h2, h3⟩ := ih (value + 1) (next + k)
      refine ⟨k + K, ?_, ?_, ?_⟩
      · simp only [valLoop, hb1, h1]
        omega
      · simp only [valLoop, hb1]
        rw [← Multiset.coe_eq_coe]
        have hperm : (↑((valLoop cx st firstSucc r (value + 1)
            (next + k)).1.map PGLine.id) : Multiset Nat) =
            ↑(List.range' (firstSucc + (value + 1)) r ++
              List.range' (next + k) K) :=
          Multiset.coe_eq_coe.mpr h2
        have hsplit1 : List.range' (firstSucc + value) (r + 1) =
            (firstSucc + value) :: List.range' (firstSucc + value + 1) r :=
          List.range'_succ _ _ _
        have hsplit2 : List.range' next (k + K) =
            List.range' next k ++ List.range' (next + k) K := by
          rw [List.range'_append_1]
          rw [Nat.add_comm K k]
        rw [hsplit1, hsplit2, hb2]
        simp only [List.map_append, ← Multiset.coe_add] at *
        rw [hperm]
        have : (firstSucc + value + 1) = (firstSucc + (value + 1)) := by omega
        rw [this, hb3]
        rw [show ((firstSucc + value) ::
            List.range' (firstSucc + (value + 1)) r) =
          [firstSucc + value] ++ List.range' (firstSucc + (value + 1)) r
          from rfl]
        rw [show List.map PGLine.id [(⟨firstSucc + value, 0, 0,
            (List.range' next k).reverse,
            toString (firstSucc + value)⟩ : PGLine)] =
          [firstSucc + value] from rfl]
        simp only [← Multiset.coe_add]
        abel
      · intro l hl
        simp only [valLoop, hb1] at hl
        rcases List.mem_append.mp hl with h | h
        · rw [hb2] at h
          rcases List.mem_append.mp h with h | h
          · exact hb4 l h
          · rcases List.mem_singleton.mp h with rfl
            rfl
        · exact h3 l h

lemma stateBlock_spec (cx : GameCtx) (nV : Nat) (st : StateC) (next : Nat) :
    ∃ K, (stateBlock cx nV st next).2 = next + K ∧
      ((stateBlock cx nV st next).1.map PGLine.id).Perm
        (st.id :: List.range' next K) ∧
      ((stateBlock cx nV st next).1.filter
        (fun l => l.owner == 1)).map PGLine.id = [st.id] := by
  obtain ⟨K', h1, h2, h3⟩ := valLoop_spec cx st next nV 0 (next + nV)
  simp only [Nat.add_zero] at h2
  refine ⟨nV + K', ?_, ?_, ?_⟩
  · simp only [stateBlock, h1]
    omega
  · simp only [stateBlock]
    rw [← Multiset.coe_eq_coe]
    have hperm := Multiset.coe_eq_coe.mpr h2
    have hsplit : List.range' next (nV + K') =
        List.range' next nV ++ List.range' (next + nV) K' := by
      rw [List.range'_append_1, Nat.add_comm K' nV]
    rw [hsplit]
    rw [show (st.id :: (List.range' next nV ++
        List.range' (next + nV) K')) =
      [st.id] ++ (List.range' next nV ++ List.range' (next + nV) K')
      from rfl]
    simp only [List.map_append, ← Multiset.coe_add] at hperm ⊢
    rw [hperm]
    rw [show List.map PGLine.id [(⟨st.id, 0, 1,
        next :: List.range' next nV,
        st.name.getD (toString st.id)⟩ : PGLine)] = [st.id] from rfl]
    abel
  · simp only [stateBlock, List.filter_append]
    rw [List.filter_eq_nil_iff.mpr
      (fun l hl => by simp [h3 l hl])]
    rfl

lemma stateLoop_spec (cx : GameCtx) (nV : Nat) :
    ∀ (sts : List StateC) (next : Nat),
    ∃ K, (stateLoop cx nV sts next).2 = next + K ∧
      ((stateLoop cx nV sts next).1.map PGLine.id).Perm
        (sts.map StateC.id ++ List.range' next K) ∧
      ((stateLoop cx nV sts next).1.filter
        (fun l => l.owner == 1)).map PGLine.id = sts.map StateC.id := by
  intro sts
  induction sts with
  | nil =>
      intro next
      exact ⟨0, by simp [stateLoop]⟩
  | cons s sts ih =>
      intro next
      obtain ⟨K1, hb1, hb2, hb3⟩ := stateBlock_spec cx nV s next
      obtain ⟨K2, h1, h2, h3⟩ := ih (next + K1)
      refine ⟨K1 + K2, ?_, ?_, ?_⟩
      · simp only [stateLoop, hb1, h1]
        omega
      · simp only [stateLoop, hb1]
        rw [← Multiset.coe_eq_coe]
        have hbm := Multiset.coe_eq_coe.mpr hb2
        have hrm := Multiset.coe_eq_coe.mpr h2
        have hsplit : List.range' next (K1 + K2) =
            List.range' next K1 ++ List.range' (next + K1) K2 := by
          rw [List.range'_append_1, Nat.add_comm K2 K1]
        rw [hsplit]
        simp only [List.map_cons]
        rw [show ((s.id :: List.map StateC.id sts) ++
            (List.range' next K1 ++ List.range' (next + K1) K2)) =
          [s.id] ++ (List.map StateC.id sts ++
            (List.range' next K1 ++ List.range' (next + K1) K2)) from rfl]
        rw [show (s.id :: List.range' next K1) =
          [s.id] ++ List.range' next K1 from rfl] at hbm
        simp only [List.map_append, ← Multiset.coe_add] at hbm hrm ⊢
        rw [hbm, hrm]
        abel
      · simp only [stateLoop, hb1, List.filter_append, List.map_append,
          hb3, h3]
        rfl

lemma flag_step (s key : String) (b : Bool) (rest : List String) :
    ((if s = key then true else b) = true ∨ key ∈ rest) ↔
      (b = true ∨ key ∈ s :: rest) := by
  by_cases h : s = key
  · subst h
    simp
  · simp only [if_neg h, List.mem_cons]
    constructor
    · rintro (hd | hm)
      · exact Or.inl hd
      · exact Or.inr (Or.inr hm)
    · rintro (hd | hm | hm)
      · exact Or.inl hd
      · exact absurd hm.symm h
      · exact Or.inr hm

lemma scanProps_mem (pr : List String) (det comp col : Bool) :
    ((scanProps pr det comp col).1 = true ↔
      det = true ∨ "deterministic" ∈ pr) ∧
    ((scanProps pr det comp col).2.1 = true ↔
      comp = true ∨ "complete" ∈ pr) ∧
    ((scanProps pr det comp col).2.2 = true ↔
      col = true ∨ "colored" ∈ pr) := by
  induction pr generalizing det comp col with
  | nil => simp [scanProps]
  | cons s rest ih =>
      simp only [scanProps]
      obtain ⟨ih1, ih2, ih3⟩ := ih (if s = "deterministic" then true else det)
        (if s = "complete" then true else comp)
        (if s = "colored" then true else col)
      exact ⟨ih1.trans (flag_step s "deterministic" det rest),
        ih2.trans (flag_step s "complete" comp rest),
        ih3.trans (flag_step s "colored" col rest)⟩

/-! ### Claim theorems -/

/-- C9: on every expression built only of the five label node kinds plus
alias references that resolve (well-formed of alias depth at most `d`),
`evalLabel` with fuel at least `d` returns a value of the ternary range
`{-1, 0, 1}`; in particular the out-of-range sentinel `-2` is never
returned, and no step of the evaluation reaches the assertion-failure
branch for the acceptance-only node kinds (nor a failing alias lookup). -/
theorem evalLabel_total_range {al : AliasT} {d : Nat} {e : BTree}
    (hwf : WFd al d e) {fuel : Nat} (hfuel : d ≤ fuel)
    (aps : List Nat) (v : Nat) :
    (evalLabel fuel e al aps v = -1 ∨ evalLabel fuel e al aps v = 0 ∨
      evalLabel fuel e al aps v = 1) ∧
    evalLabel fuel e al aps v ≠ -2 ∧
    evalAsserts fuel e al = true := by
  obtain ⟨hr, ha⟩ := evalLabel_wf hwf hfuel aps v
  refine ⟨hr, ?_, ha⟩
  rcases hr with h | h | h <;> simp [h]

/-- Witness for C9 at the expression `(ap 0) ∧ alias "a"` with table
`a ↦ true`, relevant APs `[0]`, valuation `1`. -/
theorem evalLabel_total_range_witness :
    WFd [("a", BTree.boolc true)] 1
      (BTree.andc (BTree.apc 0) (BTree.aliasc "a")) ∧
    1 ≤ 1 ∧
    ((evalLabel 1 (BTree.andc (BTree.apc 0) (BTree.aliasc "a"))
        [("a", BTree.boolc true)] [0] 1 = -1 ∨
      evalLabel 1 (BTree.andc (BTree.apc 0) (BTree.aliasc "a"))
        [("a", BTree.boolc true)] [0] 1 = 0 ∨
      evalLabel 1 (BTree.andc (BTree.apc 0) (BTree.aliasc "a"))
        [("a", BTree.boolc true)] [0] 1 = 1) ∧
     evalLabel 1 (BTree.andc (BTree.apc 0) (BTree.aliasc "a"))
        [("a", BTree.boolc true)] [0] 1 ≠ -2 ∧
     evalAsserts 1 (BTree.andc (BTree.apc 0) (BTree.aliasc "a"))
        [("a", BTree.boolc true)] = true) :=
  have hwf : WFd [("a", BTree.boolc true)] 1
      (BTree.andc (BTree.apc 0) (BTree.aliasc "a")) :=
    WFd.andW WFd.apW (WFd.aliasW rfl WFd.boolW)
  ⟨hwf, Nat.le_refl 1, evalLabel_total_range hwf (Nat.le_refl 1) [0] 1⟩

/-- C7: on well-formed labels, evaluation obeys Kleene three-valued logic:
negation flips the result, conjunction with `constant(true)` and
disjunction with `constant(false)` are identities, and an
atomic-proposition reference outside the relevant set is undetermined
regardless of the valuation. -/
theorem evalLabel_kleene {al : AliasT} {d : Nat} {e : BTree}
    (hwf : WFd al d e) {fuel : Nat} (hfuel : d ≤ fuel)
    (aps : List Nat) (v : Nat) :
    evalLabel fuel (BTree.notc e) al aps v =
      kleeneFlip (evalLabel fuel e al aps v) ∧
    evalLabel fuel (BTree.andc e (BTree.boolc true)) al aps v =
      evalLabel fuel e al aps v ∧
    evalLabel fuel (BTree.orc e (BTree.boolc false)) al aps v =
      evalLabel fuel e al aps v ∧
    ∀ i, i ∉ aps → evalLabel fuel (BTree.apc i) al aps v = 0 := by
  have hr := (evalLabel_wf hwf hfuel aps v).1
  refine ⟨?_, ?_, ?_, ?_⟩
  · rcases hr with h | h | h <;> simp [evalLabel, kleeneFlip, h]
  · rcases hr with h | h | h <;> simp [evalLabel, h]
  · rcases hr with h | h | h <;> simp [evalLabel, h]
  · intro i hi
    simpa [evalLabel] using evalAP_not_mem hi v 0

/-- Witness for C7 at the expression `alias "a"` (bound to `ap 0`) with
relevant APs `[0]`, valuation `0`, and the out-of-set AP index `1`. -/
theorem evalLabel_kleene_witness :
    WFd [("a", BTree.apc 0)] 1 (BTree.aliasc "a") ∧
    1 ≤ 2 ∧
    (evalLabel 2 (BTree.notc (BTree.aliasc "a")) [("a", BTree.apc 0)] [0] 0 =
      kleeneFlip (evalLabel 2 (BTree.aliasc "a") [("a", BTree.apc 0)] [0] 0) ∧
     evalLabel 2 (BTree.andc (BTree.aliasc "a") (BTree.boolc true))
        [("a", BTree.apc 0)] [0] 0 =
      evalLabel 2 (BTree.aliasc "a") [("a", BTree.apc 0)] [0] 0 ∧
     evalLabel 2 (BTree.orc (BTree.aliasc "a") (BTree.boolc false))
        [("a", BTree.apc 0)] [0] 0 =
      evalLabel 2 (BTree.aliasc "a") [("a", BTree.apc 0)] [0] 0 ∧
     ∀ i, i ∉ ([0] : List Nat) →
      evalLabel 2 (BTree.apc i) [("a", BTree.apc 0)] [0] 0 = 0) :=
  have hwf : WFd [("a", BTree.apc 0)] 1 (BTree.aliasc "a") :=
    WFd.aliasW rfl WFd.apW
  ⟨hwf, by decide, evalLabel_kleene hwf (by decide) [0] 0⟩

/-- C5 counterexample: evaluating the alias reference `"A"` against an
empty alias table does not abort: `evalLabel` returns the sentinel `-2` as
an ordinary value, and evaluation of an enclosing expression continues with
it (the surrounding negation yields `-1 * -2 = 2`). -/
theorem evalLabel_unresolved_alias_no_abort :
    evalLabel 1 (BTree.aliasc "A") [] [] 0 = -2 ∧
    evalLabel 1 (BTree.notc (BTree.aliasc "A")) [] [] 0 = 2 := by
  constructor <;> simp [evalLabel, lookupAlias]

/-- C5 (amended): an alias-reference node bound in the alias table is
resolved to the first entry matching the name (linear search) and its bound
expression is evaluated recursively; an alias-reference bound by no entry
evaluates to the out-of-range sentinel `-2`, which is not an ordinary
ternary evaluation result, and evaluation returns normally rather than
aborting. -/
theorem evalLabel_alias_spec (al : AliasT) (n : String) (aps : List Nat)
    (v fuel : Nat) :
    (∀ t, lookupAlias al n = some t →
      evalLabel (fuel + 1) (BTree.aliasc n) al aps v =
        evalLabel fuel t al aps v) ∧
    (lookupAlias al n = none →
      evalLabel (fuel + 1) (BTree.aliasc n) al aps v = -2 ∧
      ∀ r : Int, (r = -1 ∨ r = 0 ∨ r = 1) →
        evalLabel (fuel + 1) (BTree.aliasc n) al aps v ≠ r) ∧
    (∀ t rest, lookupAlias ((n, t) :: rest) n = some t) ∧
    (∀ m u rest, n ≠ m →
      lookupAlias ((m, u) :: rest) n = lookupAlias rest n) := by
  refine ⟨?_, ?_, ?_, ?_⟩
  · intro t h
    simp [evalLabel, h]
  · intro h
    refine ⟨by simp [evalLabel, h], ?_⟩
    intro r hr
    rcases hr with hr | hr | hr <;> simp [evalLabel, h, hr]
  · intro t rest
    simp [lookupAlias]
  · intro m u rest hne
    simp only [lookupAlias]
    rw [if_neg (fun h => hne h.symm)]

/-- Witness for C5 at the one-entry table `A ↦ true`. -/
theorem evalLabel_alias_spec_witness :
    lookupAlias [("A", BTree.boolc true)] "A" = some (BTree.boolc true) ∧
    evalLabel 1 (BTree.aliasc "A") [("A", BTree.boolc true)] [] 0 =
      evalLabel 0 (BTree.boolc true) [("A", BTree.boolc true)] [] 0 :=
  ⟨rfl, (evalLabel_alias_spec [("A", BTree.boolc true)] "A" [] 0 0).1
    (BTree.boolc true) rfl⟩

/-- C2 counterexample: for `p = 0`, `maxPriority = true`, winning parity
odd (`winRes = 1`) and `noPriorities = 4`, the normalized priority is `1`,
which is not `≥ 2`. -/
theorem adjustPriority_not_always_ge_two :
    adjustPriority 0 true 1 4 = 1 ∧ ¬ (2 ≤ adjustPriority 0 true 1 4) := by
  constructor <;> simp [adjustPriority]

/-- C2 (amended): for every raw priority `0 ≤ p < noPriorities` and
`winRes ∈ {0, 1}`, the normalizer's output is always `≥ 1` (so it never
collides with the reserved priority `0`); it is `≥ 2` whenever the winning
parity is even or the original objective is min, but equals `1` when
`maxPriority = true`, `winRes = 1` and `p = 0`.  For `noPriorities = 4,
maxPriority = true, winningParity = even` it maps `0` to `2` and `3` to
`5`, and for `maxPriority = false` under the same other parameters the
mapping is order-reversing. -/
theorem adjustPriority_bounds (p noPriorities : Int) (maxPriority : Bool)
    (winRes : Int) (hp : 0 ≤ p) (hlt : p < noPriorities)
    (hw : winRes = 0 ∨ winRes = 1) :
    1 ≤ adjustPriority p maxPriority winRes noPriorities ∧
    (winRes = 0 → 2 ≤ adjustPriority p maxPriority winRes noPriorities) ∧
    (maxPriority = false →
      2 ≤ adjustPriority p maxPriority winRes noPriorities) ∧
    adjustPriority 0 true 1 4 = 1 ∧
    adjustPriority 0 true 0 4 = 2 ∧
    adjustPriority 3 true 0 4 = 5 ∧
    adjustPriority 3 false 0 4 < adjustPriority 0 false 0 4 := by
  refine ⟨?_, ?_, ?_, by simp [adjustPriority], by simp [adjustPriority],
    by simp [adjustPriority], by simp [adjustPriority]⟩
  · rcases hw with h | h <;> subst h <;> cases maxPriority <;>
      simp only [adjustPriority, Bool.false_eq_true, if_true, if_false] <;>
      (try split_ifs) <;> omega
  · intro h
    subst h
    cases maxPriority <;>
      simp only [adjustPriority, Bool.false_eq_true, if_true, if_false] <;>
      (try split_ifs) <;> omega
  · intro h
    subst h
    rcases hw with h2 | h2 <;> subst h2 <;>
      simp only [adjustPriority, Bool.false_eq_true, if_true, if_false] <;>
      (try split_ifs) <;> omega

/-- C6 counterexample: the parameter list `["max", "min", "even"]` contains
both members of the max/min pair, yet the check passes (returning the pair
extracted with the later occurrence, `"min"`, winning) instead of being
rejected as a validation failure. -/
theorem checkAccParams_both_members_pass :
    checkAccParams ["max", "min", "even"] = Except.ok (false, 0) := rfl

/-- Characterization of the acceptance-name parameter check, shared by the
claims about the gate. -/
lemma checkAccParams_chars (ps : List String) :
    ((checkAccParams ps).isOk ↔
      ("max" ∈ ps ∨ "min" ∈ ps) ∧ ("even" ∈ ps ∨ "odd" ∈ ps)) ∧
    (¬ ("max" ∈ ps ∨ "min" ∈ ps) → checkAccParams ps = Except.error 101) ∧
    (("max" ∈ ps ∨ "min" ∈ ps) → ¬ ("even" ∈ ps ∨ "odd" ∈ ps) →
      checkAccParams ps = Except.error 102) := by
  have hfst := scanParams_fst_none ps none none
  have hsnd := scanParams_snd_none ps none none
  simp only [true_and] at hfst hsnd
  unfold checkAccParams
  rcases hsc : scanParams ps none none with ⟨mo, mr⟩
  rw [hsc] at hfst hsnd
  simp only at hfst hsnd
  rcases mo with _ | b
  · have h1 := hfst.1 rfl
    refine ⟨by simp [Except.isOk, Except.toBool, h1.1, h1.2], fun _ => rfl, ?_⟩
    intro ho _
    rcases ho with h | h
    · exact absurd h h1.1
    · exact absurd h h1.2
  · have ho : "max" ∈ ps ∨ "min" ∈ ps := by
      by_contra hno
      push_neg at hno
      exact absurd (hfst.2 ⟨hno.1, hno.2⟩) (by simp)
    rcases mr with _ | r
    · have h2 := hsnd.1 rfl
      refine ⟨by simp [Except.isOk, Except.toBool, h2.1, h2.2], ?_, fun _ _ => rfl⟩
      intro hno
      exact absurd ho hno
    · have hr : "even" ∈ ps ∨ "odd" ∈ ps := by
        by_contra hno
        push_neg at hno
        exact absurd (hsnd.2 ⟨hno.1, hno.2⟩) (by simp)
      refine ⟨by simp [Except.isOk, Except.toBool, ho, hr], ?_, ?_⟩
      · intro hno
        exact absurd ho hno
      · intro _ hno
        exact absurd hr hno

/-- C6 (amended): the gate passes the acceptance-name parameter check if
and only if the list contains at least one of `{"max","min"}` and at least
one of `{"even","odd"}` (a list containing both members of a pair passes,
the last occurrence winning); a list missing max/min causes exit code 101
(regardless of the even/odd parameters), and a list containing max/min but
missing even/odd causes exit code 102. -/
theorem checkAccParams_spec (ps : List String) :
    ((checkAccParams ps).isOk ↔
      ("max" ∈ ps ∨ "min" ∈ ps) ∧ ("even" ∈ ps ∨ "odd" ∈ ps)) ∧
    (¬ ("max" ∈ ps ∨ "min" ∈ ps) → checkAccParams ps = Except.error 101) ∧
    (("max" ∈ ps ∨ "min" ∈ ps) → ¬ ("even" ∈ ps ∨ "odd" ∈ ps) →
      checkAccParams ps = Except.error 102) :=
  checkAccParams_chars ps

/-- Witness for C6 at the list `["min", "odd"]`. -/
theorem checkAccParams_spec_witness :
    ((checkAccParams ["min", "odd"]).isOk ↔
      ("max" ∈ (["min", "odd"] : List String) ∨
        "min" ∈ (["min", "odd"] : List String)) ∧
      ("even" ∈ (["min", "odd"] : List String) ∨
        "odd" ∈ (["min", "odd"] : List String))) ∧
    (¬ ("max" ∈ (["min", "odd"] : List String) ∨
        "min" ∈ (["min", "odd"] : List String)) →
      checkAccParams ["min", "odd"] = Except.error 101) ∧
    (("max" ∈ (["min", "odd"] : List String) ∨
        "min" ∈ (["min", "odd"] : List String)) →
      ¬ ("even" ∈ (["min", "odd"] : List String) ∨
        "odd" ∈ (["min", "odd"] : List String)) →
      checkAccParams ["min", "odd"] = Except.error 102) :=
  checkAccParams_spec ["min", "odd"]

/-- C10: when several validation conditions are violated simultaneously,
the exit code is that of the first failing check in the fixed source
order: acceptance-name identifier (100), max/min parameter (101), even/odd
parameter (102), deterministic (200), complete (201), colored (202),
unique start state (300). -/
theorem validate_first_failure (a : String) (ps pr : List String)
    (st : List Nat) :
    (a ≠ "parity" → validate a ps pr st = Except.error 100) ∧
    (a = "parity" → ¬ ("max" ∈ ps ∨ "min" ∈ ps) →
      validate a ps pr st = Except.error 101) ∧
    (a = "parity" → ("max" ∈ ps ∨ "min" ∈ ps) →
      ¬ ("even" ∈ ps ∨ "odd" ∈ ps) →
      validate a ps pr st = Except.error 102) ∧
    (a = "parity" → ("max" ∈ ps ∨ "min" ∈ ps) →
      ("even" ∈ ps ∨ "odd" ∈ ps) → "deterministic" ∉ pr →
      validate a ps pr st = Except.error 200) ∧
    (a = "parity" → ("max" ∈ ps ∨ "min" ∈ ps) →
      ("even" ∈ ps ∨ "odd" ∈ ps) → "deterministic" ∈ pr →
      "complete" ∉ pr → validate a ps pr st = Except.error 201) ∧
    (a = "parity" → ("max" ∈ ps ∨ "min" ∈ ps) →
      ("even" ∈ ps ∨ "odd" ∈ ps) → "deterministic" ∈ pr →
      "complete" ∈ pr → "colored" ∉ pr →
      validate a ps pr st = Except.error 202) ∧
    (a = "parity" → ("max" ∈ ps ∨ "min" ∈ ps) →
      ("even" ∈ ps ∨ "odd" ∈ ps) → "deterministic" ∈ pr →
      "complete" ∈ pr → "colored" ∈ pr → st.length ≠ 1 →
      validate a ps pr st = Except.error 300) := by
  have hacc := checkAccParams_chars ps
  have hsp := scanProps_mem pr false false false
  simp only [Bool.false_eq_true, false_or] at hsp
  obtain ⟨hspd, hspc, hspl⟩ := hsp
  rcases hsp2 : scanProps pr false false false with ⟨d1, c1, l1⟩
  rw [hsp2] at hspd hspc hspl
  simp only at hspd hspc hspl
  have okcase : ∀ (hord : "max" ∈ ps ∨ "min" ∈ ps)
      (hres : "even" ∈ ps ∨ "odd" ∈ ps),
      ∃ b r, checkAccParams ps = Except.ok (b, r) := by
    intro hord hres
    have hok := hacc.1.2 ⟨hord, hres⟩
    rcases hc : checkAccParams ps with e | ⟨b, r⟩
    · rw [hc] at hok
      simp [Except.isOk, Except.toBool] at hok
    · exact ⟨b, r, rfl⟩
  refine ⟨?_, ?_, ?_, ?_, ?_, ?_, ?_⟩
  · intro h
    simp [validate, h]
  · intro h hno
    subst h
    unfold validate
    rw [if_neg (by simp), hacc.2.1 hno]
  · intro h hord hno
    subst h
    unfold validate
    rw [if_neg (by simp), hacc.2.2 hord hno]
  · intro h hord hres hnd
    subst h
    obtain ⟨b, r, hc⟩ := okcase hord hres
    have hd1 : d1 = false := by
      cases hd : d1
      · rfl
      · rw [hd] at hspd
        exact absurd (hspd.1 rfl) hnd
    subst hd1
    unfold validate
    rw [if_neg (by simp), hc, hsp2]
  · intro h hord hres hd hnc
    subst h
    obtain ⟨b, r, hc⟩ := okcase hord hres
    have hd1 : d1 = true := hspd.2 hd
    have hc1 : c1 = false := by
      cases hcc : c1
      · rfl
      · rw [hcc] at hspc
        exact absurd (hspc.1 rfl) hnc
    subst hd1
    subst hc1
    unfold validate
    rw [if_neg (by simp), hc, hsp2]
  · intro h hord hres hd hcm hnl
    subst h
    obtain ⟨b, r, hc⟩ := okcase hord hres
    have hd1 : d1 = true := hspd.2 hd
    have hc1 : c1 = true := hspc.2 hcm
    have hl1 : l1 = false := by
      cases hll : l1
      · rfl
      · rw [hll] at hspl
        exact absurd (hspl.1 rfl) hnl
    subst hd1
    subst hc1
    subst hl1
    unfold validate
    rw [if_neg (by simp), hc, hsp2]
  · intro h hord hres hd hcm hl hst
    subst h
    obtain ⟨b, r, hc⟩ := okcase hord hres
    have hd1 : d1 = true := hspd.2 hd
    have hc1 : c1 = true := hspc.2 hcm
    have hl1 : l1 = true := hspl.2 hl
    subst hd1
    subst hc1
    subst hl1
    unfold validate
    rw [if_neg (by simp), hc, hsp2]
    rcases st with _ | ⟨x, _ | ⟨y, rest⟩⟩
    · rfl
    · exact absurd rfl hst
    · rfl

/-- C8: vertex identifier allocation is a deterministic function of the
input (the construction is a pure function) and collision-free: for every
automaton whose states carry pairwise distinct identifiers below
`noStates`, the emitted vertex identifiers are pairwise distinct; they
consist of exactly the original state identifiers (carried by the
owner-1 decision vertices, one per state in order) together with a
contiguous block of fresh identifiers `noStates, noStates + 1, ...`
allocated consecutively. -/
theorem buildGame_id_allocation (d : Hoa) (mp : Bool) (wr : Int)
    (fuel : Nat) (hnodup : (d.states.map StateC.id).Nodup)
    (hlt : ∀ st ∈ d.states, st.id < d.noStates) :
    ∃ K,
      ((buildGame d mp wr fuel).2.map PGLine.id).Perm
        (d.states.map StateC.id ++ List.range' d.noStates K) ∧
      ((buildGame d mp wr fuel).2.map PGLine.id).Nodup ∧
      ((buildGame d mp wr fuel).2.filter
        (fun l => l.owner == 1)).map PGLine.id = d.states.map StateC.id := by
  obtain ⟨K, h1, h2, h3⟩ := stateLoop_spec
    ⟨d.aliases, mp, wr, d.noAccSets, ucntAPs d, fuel⟩ (numValuations d)
    d.states d.noStates
  refine ⟨K, ?_, ?_, ?_⟩
  · simpa only [buildGame] using h2
  · have hn : (d.states.map StateC.id ++
        List.range' d.noStates K).Nodup := by
      refine List.Nodup.append hnodup (List.nodup_range' _ _) ?_
      intro a ha hb
      rcases List.mem_map.mp ha with ⟨st, hst, rfl⟩
      exact absurd (List.mem_range'_1.mp hb).1
        (by simpa using Nat.lt_irrefl _ ∘ Nat.lt_of_lt_of_le (hlt st hst))
    simp only [buildGame]
    exact h2.nodup_iff.mpr hn
  · simpa only [buildGame] using h3

/-- Witness for C8 at the automaton `E1`. -/
theorem buildGame_id_allocation_witness :
    (E1.states.map StateC.id).Nodup ∧
    (∀ st ∈ E1.states, st.id < E1.noStates) ∧
    ∃ K,
      ((buildGame E1 true 0 1).2.map PGLine.id).Perm
        (E1.states.map StateC.id ++ List.range' E1.noStates K) ∧
      ((buildGame E1 true 0 1).2.map PGLine.id).Nodup ∧
      ((buildGame E1 true 0 1).2.filter
        (fun l => l.owner == 1)).map PGLine.id = E1.states.map StateC.id :=
  ⟨by decide, by decide,
   buildGame_id_allocation E1 true 0 1 (by decide) (by decide)⟩

/-- C3 counterexample: on the automaton `E2` (one state, two always-true
transitions, no APs) the compatible-transition vertices for the single
valuation are allocated the identifiers 2 then 3, but the emitted
valuation vertex carries the successor list `[3, 2]` — the reverse of
allocation order, not the claimed ascending allocation order `[2, 3]`. -/
theorem valuation_vertex_reverse_order_cex :
    (buildGame E2 true 0 1).2 =
      [⟨2, 2, 0, [0], "2"⟩, ⟨3, 2, 0, [0], "3"⟩,
       ⟨1, 0, 0, [3, 2], "1"⟩, ⟨0, 0, 1, [1, 1], "0"⟩] ∧
    ([3, 2] : List Nat) ≠ [2, 3] := by
  refine ⟨?_, by decide⟩
  simp [buildGame, stateLoop, stateBlock, valLoop, valuationBlock,
    transLoop, evalLabel, effLabel, effAcc, adjustPriority, E2,
    numValuations, ucntAPs, List.range']
  decide

/-- C3 (amended): for every state and every uncontrollable-AP valuation,
the emitted valuation vertex has priority 0, owner 0 (auxiliary player),
its display label is its own identifier, and its successor list consists
of the compatible-transition vertex identifiers collected for that
valuation (allocated consecutively from `next`) written in REVERSE
allocation order (descending), because the C code builds the list by
prepending and prints it head first. -/
theorem valuation_vertex_spec (cx : GameCtx) (st : StateC)
    (firstSucc value next : Nat) :
    ∃ k tl,
      (valuationBlock cx st firstSucc value next).1 =
        tl ++ [⟨firstSucc + value, 0, 0, (List.range' next k).reverse,
               toString (firstSucc + value)⟩] ∧
      tl.map PGLine.id = List.range' next k ∧
      (valuationBlock cx st firstSucc value next).2 = next + k := by
  obtain ⟨k, tl, h1, h2, h3, _⟩ :=
    valuationBlock_struct cx st firstSucc value next
  exact ⟨k, tl, h2, h3, h1⟩

/-- C1: the emitted decision vertex has identifier `id(s)`, priority 0,
owner 1 and the display label the claim states, but its successor list is
NOT the claimed list of the `numValuations` valuation-vertex identifiers
each appearing exactly once: the C loop at `src/hoa2pg.c` lines 288-291
restarts at `firstSucc` after already printing it, so `firstSucc` appears
twice.  On `E1` (`numValuations = 1`, valuation vertex 1) the decision
line is `0 0 1 1,1 "0"`, its successor list `[1, 1]` of length 2. -/
theorem decision_vertex_duplicate_successor :
    (buildGame E1 true 0 1).2 =
      [⟨2, 2, 0, [0], "2"⟩, ⟨1, 0, 0, [2], "1"⟩,
       ⟨0, 0, 1, [1, 1], "0"⟩] ∧
    numValuations E1 = 1 ∧
    ([1, 1] : List Nat).count 1 = 2 ∧
    ([1, 1] : List Nat).length ≠ numValuations E1 := by
  refine ⟨?_, by decide, by decide, by decide⟩
  simp [buildGame, stateLoop, stateBlock, valLoop, valuationBlock,
    transLoop, evalLabel, effLabel, effAcc, adjustPriority, E1,
    numValuations, ucntAPs, List.range']
  decide

/-- C4: the bound printed on the `parity N;` header line is NOT an upper
bound on the highest emitted vertex identifier (the source flags the
formula with `// TODO: too low`): on `E1` the header declares `N = 1`
while the compatible-transition vertex with identifier 2 is emitted. -/
theorem header_bound_too_low :
    (buildGame E1 true 0 1).1 = 1 ∧
    2 ∈ (buildGame E1 true 0 1).2.map PGLine.id ∧
    ¬ ((2 : Int) ≤ (buildGame E1 true 0 1).1) := by
  have hlines : (buildGame E1 true 0 1).2 =
      [⟨2, 2, 0, [0], "2"⟩, ⟨1, 0, 0, [2], "1"⟩,
       ⟨0, 0, 1, [1, 1], "0"⟩] := by
    simp [buildGame, stateLoop, stateBlock, valLoop, valuationBlock,
      transLoop, evalLabel, effLabel, effAcc, adjustPriority, E1,
      numValuations, ucntAPs, List.range']
    decide
  refine ⟨?_, ?_, ?_⟩
  · simp [buildGame, E1, numValuations, ucntAPs]
  · rw [hlines]
    simp
  · have : (buildGame E1 true 0 1).1 = 1 := by
      simp [buildGame, E1, numValuations, ucntAPs]
    rw [this]
    decide

/-- Witness for C10: a non-parity automaton that also has two start states
exits with code 100, not 300. -/
theorem validate_first_failure_witness :
    ("Rabin" : String) ≠ "parity" ∧
    validate "Rabin" [] [] [0, 1] = Except.error 100 :=
  ⟨by decide, (validate_first_failure "Rabin" [] [] [0, 1]).1 (by decide)⟩

/-- Witness for C2 at `p = 1`, `noPriorities = 4`, max, odd. -/
theorem adjustPriority_bounds_witness :
    (0 : Int) ≤ 1 ∧ (1 : Int) < 4 ∧ ((1 : Int) = 0 ∨ (1 : Int) = 1) ∧
    (1 ≤ adjustPriority 1 true 1 4 ∧
     ((1 : Int) = 0 → 2 ≤ adjustPriority 1 true 1 4) ∧
     (true = false → 2 ≤ adjustPriority 1 true 1 4) ∧
     adjustPriority 0 true 1 4 = 1 ∧
     adjustPriority 0 true 0 4 = 2 ∧
     adjustPriority 3 true 0 4 = 5 ∧
     adjustPriority 3 false 0 4 < adjustPriority 0 false 0 4) :=
  ⟨by decide, by decide, Or.inr rfl,
   adjustPriority_bounds 1 4 true 1 (by decide) (by decide) (Or.inr rfl)⟩

end Hoa2PG
